import Mathlib

/-!
Verification development for the noaa-cdr repository.

The repository converts NOAA Climate Data Record NetCDF archives into STAC
metadata records.  The development below embeds, as executable Lean
definitions, the path handling of `os.path.basename`/`os.path.splitext` used
by `sea_ice_concentration/stac.py` and by
`scripts/extract_netcdf_asset_metadata.py`, the dictionary-building loop of
the extraction script, and — for the ocean-heat-content item/collection
builder, whose module is described by the specification — a model of the
per-slice builder, the time-slice splitter boundaries, the raster-converter
record shapes and the collection builder.
-/

/-! ## Path helpers: semantics of os.path.basename and os.path.splitext -/

/-- Characters of a path after the last slash, as in `os.path.basename`. -/
def basenameChars (l : List Char) : List Char :=
  (l.reverse.takeWhile (fun c => c ≠ '/')).reverse

/-- Root part of `os.path.splitext` on a basename: leading dots never start an
extension; otherwise the extension begins at the last dot. -/
def splitextStemChars (l : List Char) : List Char :=
  let dots := l.takeWhile (fun c => c = '.')
  let rest := l.dropWhile (fun c => c = '.')
  if rest.any (fun c => c = '.') then
    dots ++ ((rest.reverse.dropWhile (fun c => c ≠ '.')).tail).reverse
  else l

/-- Basename without extension, `os.path.splitext(os.path.basename(s))[0]`. -/
def pathStem (s : String) : String := ⟨splitextStemChars (basenameChars s.data)⟩

/-- `os.path.basename(s)` on strings. -/
def pathBasename (s : String) : String := ⟨basenameChars s.data⟩

/-! ## Sea-ice concentration create_item
(src/stactools/noaa_cdr/sea_ice_concentration/stac.py) -/

/-- A STAC item as far as the sea-ice `create_item` wrapper determines it:
the wrapper overrides the id with the basename-without-extension of the href. -/
structure SeaIceItem where
  id : String
  href : String
deriving DecidableEq

/-- Embeds `create_item` of `sea_ice_concentration/stac.py`: the item id is
`os.path.splitext(os.path.basename(href))[0]`. -/
def seaIceCreateItem (href : String) : SeaIceItem :=
  { id := pathStem href, href := href }

/-! ## Python-dict association lists (assignment and lookup) -/

/-- Python-dict assignment `m[k] = v`: an existing key keeps its position and
gets the new value; a new key is appended. -/
def dictInsert {κ β : Type} [DecidableEq κ] (m : List (κ × β)) (k : κ) (v : β) :
    List (κ × β) :=
  match m with
  | [] => [(k, v)]
  | (k', v') :: rest => if k' = k then (k, v) :: rest else (k', v') :: dictInsert rest k v

/-- Python-dict lookup `m[k]`. -/
def dictLookup {κ β : Type} [DecidableEq κ] (m : List (κ × β)) (k : κ) : Option β :=
  match m with
  | [] => none
  | (k', v') :: rest => if k' = k then some v' else dictLookup rest k

/-- The last element of `l` whose image under `f` is `k`, if any. -/
def lastMatching {α κ : Type} [DecidableEq κ] (f : α → κ) (k : κ) : List α → Option α
  | [] => none
  | a :: l =>
    match lastMatching f k l with
    | some b => some b
    | none => if f a = k then some a else none

/-- Keys added by successive dict assignments for `l`, given the keys already
`seen`: each key appears once, at its first occurrence. -/
def newKeys {κ : Type} [DecidableEq κ] : List κ → List κ → List κ
  | _, [] => []
  | seen, k :: ks =>
    if k ∈ seen then newKeys seen ks else k :: newKeys (seen ++ [k]) ks

/-- Deduplication keeping the first occurrence of each element. -/
def firstDedup {κ : Type} [DecidableEq κ] (l : List κ) : List κ :=
  newKeys [] l

/-! ## The metadata-extraction script (scripts/extract_netcdf_asset_metadata.py) -/

/-- Global attributes the script reads from one NetCDF file. -/
structure NetcdfAttrs where
  title : String
  summary : String
deriving DecidableEq

/-- One CDR of the catalog: its slug, its source-file URLs, and the global
attributes of the file behind each URL (the part `fsspec`/`xarray` read). -/
structure Cdr where
  slug : String
  hrefs : List String
  attrs : String → NetcdfAttrs

/-- The value the script stores per file:
`{"title": dataset.title, "description": dataset.summary}`. -/
def assetEntry (a : NetcdfAttrs) : List (String × String) :=
  [("title", a.title), ("description", a.summary)]

/-- Embeds the inner loop of the script: for each href of a CDR, assign
`metadata[slug][stem] = {"title": ..., "description": ...}`. -/
def cdrMetadata (cdr : Cdr) : List (String × List (String × String)) :=
  cdr.hrefs.foldl
    (fun m href => dictInsert m (pathStem href) (assetEntry (cdr.attrs href))) []

/-- Embeds the script's outer loop over `Cdr.cdrs()`. -/
def scriptMetadata (cdrs : List Cdr) :
    List (String × List (String × List (String × String))) :=
  cdrs.foldl (fun m cdr => dictInsert m cdr.slug (cdrMetadata cdr)) []

/-! ## Ocean-heat-content model: timestamps and slices -/

/-- Interval kinds of the time-slice splitter. -/
inductive IntervalKind
  | yearly
  | monthly
  | pentadal
  | seasonal
deriving DecidableEq

structure Timestamp where
  year : Nat
  month : Nat
  day : Nat
  hour : Nat
  minute : Nat
  second : Nat
deriving DecidableEq

/-- A numeric key that orders well-formed timestamps chronologically. -/
def Timestamp.key (t : Timestamp) : Nat :=
  ((((t.year * 13 + t.month) * 32 + t.day) * 24 + t.hour) * 60 + t.minute) * 60 + t.second

def isLeapYear (y : Nat) : Bool :=
  (y % 4 == 0 && y % 100 != 0) || y % 400 == 0

def daysInMonth (y m : Nat) : Nat :=
  if m = 2 then (if isLeapYear y then 29 else 28)
  else if m = 4 ∨ m = 6 ∨ m = 9 ∨ m = 11 then 30 else 31

def intervalName : IntervalKind → String
  | .yearly => "yearly"
  | .monthly => "monthly"
  | .pentadal => "pentadal"
  | .seasonal => "seasonal"

/-- Modelled from the spec: the Time-Slice Splitter's start boundary of the
period with index `p` (for yearly/pentadal the year itself, for monthly the
month count, for seasonal the quarter count); `ocean_heat_content` time
handling is not under src/. -/
def sliceStart : IntervalKind → Nat → Timestamp
  | .yearly, y => ⟨y, 1, 1, 0, 0, 0⟩
  | .monthly, i => ⟨i / 12, i % 12 + 1, 1, 0, 0, 0⟩
  | .seasonal, i => ⟨i / 4, 3 * (i % 4) + 1, 1, 0, 0, 0⟩
  | .pentadal, y => ⟨y, 1, 1, 0, 0, 0⟩

/-- Modelled from the spec: the end timestamp of a slice is the last instant
(23:59:59) of the covered period's final day, never the next period's start. -/
def sliceStop : IntervalKind → Timestamp → Timestamp
  | .yearly, t => ⟨t.year, 12, 31, 23, 59, 59⟩
  | .monthly, t => ⟨t.year, t.month, daysInMonth t.year t.month, 23, 59, 59⟩
  | .seasonal, t => ⟨t.year, t.month + 2, daysInMonth t.year (t.month + 2), 23, 59, 59⟩
  | .pentadal, t => ⟨t.year + 4, 12, 31, 23, 59, 59⟩

/-- Modelled from the spec: what the builder needs from one source NetCDF
file after attribute extraction (RawAttributes plus the file's variable). -/
structure SourceFile where
  path : String
  varName : String
  units : Option String
  maxDepth : Option Nat
  interval : IntervalKind
  periods : List Nat
deriving DecidableEq

/-- The slice keys (interval kind, start timestamp) of a source file. -/
def sliceKeys (f : SourceFile) : List (IntervalKind × Timestamp) :=
  f.periods.map (fun p => (f.interval, sliceStart f.interval p))

/-! ## Ocean-heat-content model: assets and records -/

/-- One band descriptor of a converted raster. -/
structure RasterBand where
  nodata : String
  dataType : String
  unit : Option String
deriving DecidableEq

/-- The serialized fields of a band descriptor; the `unit` key is present only
when the band has a unit. -/
def bandFields (b : RasterBand) : List (String × String) :=
  [("nodata", b.nodata), ("data_type", b.dataType)] ++
    (match b.unit with
     | some u => [("unit", u)]
     | none => [])

/-- Modelled from the spec: the band descriptor built from a variable's units
attribute; the unit is omitted when the attribute is absent or empty
(unitless quantities such as salinity anomalies). -/
def mkBand (units : Option String) : RasterBand :=
  { nodata := "nan", dataType := "float32",
    unit :=
      match units with
      | none => none
      | some u => if u = "" then none else some u }

structure AssetRecord where
  href : String
  mediaType : String
  roles : List String
  band : RasterBand
deriving DecidableEq

/-- The COG filename the converter writes (and expects) for one slice. -/
def cogFileName (f : SourceFile) (p : Nat) : String :=
  f.varName ++ "_" ++ intervalName f.interval ++ "_" ++ toString p ++ ".tif"

/-- Modelled from the spec: the Raster Converter's output record for one
slice of a source file, written under the output directory. -/
def mkAsset (f : SourceFile) (dir : String) (p : Nat) : AssetRecord :=
  { href := dir ++ "/" ++ cogFileName f p,
    mediaType := "image/tiff; application=geotiff; profile=cloud-optimized",
    roles := ["data"],
    band := mkBand f.units }

inductive BuilderError
  | assetMismatch
  | cacheMiss
deriving DecidableEq

/-- The Raster Converter signature
`(source, output directory, optional pre-converted paths)`.  The
already-converted mode follows the behaviour the repository's own tests pin
(`test_cogify_cog_href`, `test_create_items_one_netcdf_cog_hrefs`): a slice
whose expected COG filename equals a supplied path's basename reuses that
path, every other slice gets a freshly generated COG under the output
directory, and a count disagreement raises nothing. -/
def cogify (f : SourceFile) (dir : String) (cogHrefs : Option (List String)) :
    List AssetRecord :=
  match cogHrefs with
  | none => f.periods.map (mkAsset f dir)
  | some hs =>
    f.periods.map (fun p =>
      match hs.find? (fun h => pathBasename h = cogFileName f p) with
      | some h => { mkAsset f dir p with href := h }
      | none => mkAsset f dir p)

/-- One (slice, asset) pair contributed by a source file. -/
structure SliceAsset where
  interval : IntervalKind
  start : Timestamp
  varName : String
  asset : AssetRecord
  maxDepth : Option Nat
deriving DecidableEq

def SliceAsset.sliceKey (t : SliceAsset) : IntervalKind × Timestamp :=
  (t.interval, t.start)

/-- One published STAC item of the ocean-heat-content builder. -/
structure MetadataRecord where
  id : String
  interval : IntervalKind
  start : Timestamp
  stop : Timestamp
  maxDepth : Option Nat
  assets : List (String × AssetRecord)
deriving DecidableEq

/-- Modelled from the spec: the deterministic identifier derived from
(dataset slug, interval kind, start timestamp). -/
def mkId (slug : String) (k : IntervalKind) (t : Timestamp) : String :=
  slug ++ "-" ++ intervalName k ++ "-" ++ toString t.year ++ "-"
    ++ toString t.month ++ "-" ++ toString t.day

/-- The merged record for one slice key: all assets of all files covering
that slice, keyed by variable name. -/
def recordFor (slug : String) (ts : List SliceAsset) (k : IntervalKind × Timestamp) :
    MetadataRecord :=
  { id := mkId slug k.1 k.2,
    interval := k.1,
    start := k.2,
    stop := sliceStop k.1 k.2,
    maxDepth := (ts.find? (fun t => t.sliceKey = k)).bind SliceAsset.maxDepth,
    assets := (ts.filter (fun t => t.sliceKey = k)).map (fun t => (t.varName, t.asset)) }

/-- Modelled from the spec: per-slice records in order of first appearance,
files sharing a slice merged into one record with multiple assets. -/
def buildRecords (slug : String) (ts : List SliceAsset) : List MetadataRecord :=
  (firstDedup (ts.map SliceAsset.sliceKey)).map (recordFor slug ts)

/-- The (slice, asset) pairs of one file given its converted assets. -/
def fileSliceAssets (f : SourceFile) (assets : List AssetRecord) : List SliceAsset :=
  (f.periods.zip assets).map
    (fun pa => ⟨f.interval, sliceStart f.interval pa.1, f.varName, pa.2, f.maxDepth⟩)

/-- The chronologically latest record (ties resolved to the later element). -/
def latestRecord : List MetadataRecord → Option MetadataRecord
  | [] => none
  | r :: rs =>
    some (rs.foldl (fun best x => if best.start.key ≤ x.start.key then x else best) r)

/-- Modelled from the spec: the `create_items` entry point — slices of all
files merged by slice key, with `latest_only` returning only the
chronologically last record. -/
def createItems (slug : String) (files : List SourceFile) (dir : String)
    (latestOnly : Bool) : List MetadataRecord :=
  let rs := buildRecords slug
    (files.flatMap (fun f => fileSliceAssets f (f.periods.map (mkAsset f dir))))
  if latestOnly then (latestRecord rs).toList else rs

/-- The per-file builder with optional pre-converted raster paths: it builds
one record per slice from whatever assets the converter returns. -/
def createItemsForFile (slug : String) (f : SourceFile) (dir : String)
    (cogHrefs : Option (List String)) : List MetadataRecord :=
  buildRecords slug (fileSliceAssets f (cogify f dir cogHrefs))

/-! ## Ocean-heat-content model: collection builder -/

/-- A dataset family of the static catalog: slug and source-file URLs. -/
structure DatasetFamily where
  slug : String
  hrefs : List String
deriving DecidableEq

structure CollectionAsset where
  title : String
  description : String
  mediaType : String
  roles : List String
deriving DecidableEq

structure CollectionRecord where
  id : String
  assets : List (String × CollectionAsset)
deriving DecidableEq

/-- Whether the pre-extracted metadata cache holds a usable (non-empty title
and description) entry for a source file URL. -/
def goodCacheEntry (cache : List (String × String × String)) (href : String) : Bool :=
  match dictLookup cache (pathStem href) with
  | some td => !(td.1 == "") && !(td.2 == "")
  | none => false

/-- Modelled from the spec: one collection asset per source file, its title
and description filled from the pre-extracted cache, failing with CacheMiss
when a key is absent; media type and roles are fixed. -/
def collectAssets (cache : List (String × String × String)) :
    List String → Except BuilderError (List (String × CollectionAsset))
  | [] => .ok []
  | h :: hs =>
    match dictLookup cache (pathStem h) with
    | none => .error .cacheMiss
    | some td =>
      (collectAssets cache hs).map
        (fun rest => (pathStem h, ⟨td.1, td.2, "application/netcdf", ["data", "source"]⟩) :: rest)

/-- Modelled from the spec: the per-collection builder. -/
def createCollection (family : DatasetFamily) (cache : List (String × String × String)) :
    Except BuilderError CollectionRecord :=
  (collectAssets cache family.hrefs).map
    (fun assets => { id := family.slug, assets := assets })

/-- Modelled from the spec: the ocean-heat-content dataset family; the spec
fixes its slug and its expected asset count (44), and the module holding the
concrete source URLs is not under src/, so the hrefs here are schematic. -/
def oceanHeatContent : DatasetFamily :=
  { slug := "noaa-cdr-ocean-heat-content",
    hrefs := (List.range 44).map (fun i => "data/ohc_" ++ toString i ++ ".nc") }

/-! ## Sample inputs used by the witness theorems -/

def sampleCdr : Cdr :=
  { slug := "ocean-heat-content",
    hrefs := ["d/x.nc", "d/y.nc"],
    attrs := fun _ => ⟨"T", "S"⟩ }

def sampleCdrDup : Cdr :=
  { slug := "ocean-heat-content",
    hrefs := ["a/x.nc", "b/x.nc"],
    attrs := fun h => if h = "a/x.nc" then ⟨"T1", "S1"⟩ else ⟨"T2", "S2"⟩ }

def sampleFile : SourceFile :=
  { path := "p.nc", varName := "heat_content_anomaly", units := some "10^18 joules",
    maxDepth := some 2000, interval := .yearly, periods := [1955, 1956] }

def sampleFileB : SourceFile :=
  { path := "q.nc", varName := "mean_salinity_anomaly", units := some "",
    maxDepth := some 2000, interval := .yearly, periods := [1955, 1956] }

def sampleFileC : SourceFile :=
  { path := "r.nc", varName := "mean_salinity_anomaly", units := some "",
    maxDepth := some 2000, interval := .yearly, periods := [1960] }

def dfltRecord : MetadataRecord :=
  { id := "", interval := .yearly, start := ⟨0, 0, 0, 0, 0, 0⟩,
    stop := ⟨0, 0, 0, 0, 0, 0⟩, maxDepth := none, assets := [] }

/-! # Theorems -/

/-! ## Path lemmas -/

theorem takeWhile_append_stop {α : Type} (p : α → Bool) (l1 l2 : List α) (a : α)
    (h1 : ∀ x ∈ l1, p x = true) (ha : p a = false) :
    (l1 ++ a :: l2).takeWhile p = l1 := by
  induction l1 with
  | nil => simp [List.takeWhile_cons, ha]
  | cons b l1 ih =>
    have hb : p b = true := h1 b (by simp)
    simp only [List.cons_append, List.takeWhile_cons, hb, if_true]
    simp only [List.cons.injEq, true_and]
    exact ih (fun x hx => h1 x (by simp [hx]))

theorem dropWhile_append_stop {α : Type} (p : α → Bool) (l1 l2 : List α) (a : α)
    (h1 : ∀ x ∈ l1, p x = true) (ha : p a = false) :
    (l1 ++ a :: l2).dropWhile p = a :: l2 := by
  induction l1 with
  | nil => simp [List.dropWhile_cons, ha]
  | cons b l1 ih =>
    have hb : p b = true := h1 b (by simp)
    simp only [List.cons_append, List.dropWhile_cons, hb, if_true]
    exact ih (fun x hx => h1 x (by simp [hx]))

theorem basenameChars_append (d b : List Char) (hb : '/' ∉ b) :
    basenameChars (d ++ '/' :: b) = b := by
  unfold basenameChars
  have : (d ++ '/' :: b).reverse = b.reverse ++ '/' :: d.reverse := by
    simp
  rw [this, takeWhile_append_stop _ _ _ _ ?_ (by simp), List.reverse_reverse]
  intro x hx
  simp only [List.mem_reverse] at hx
  simp only [decide_eq_true_eq]
  intro hxe
  exact hb (hxe ▸ hx)

theorem mem_takeWhile_pred {α : Type} (p : α → Bool) (l : List α) (x : α)
    (hx : x ∈ l.takeWhile p) : p x = true := by
  induction l with
  | nil => simp at hx
  | cons b l ih =>
    rw [List.takeWhile_cons] at hx
    cases hpb : p b
    · rw [hpb] at hx
      simp at hx
    · rw [hpb] at hx
      rw [if_pos rfl] at hx
      rcases List.mem_cons.mp hx with h | h
      · exact h ▸ hpb
      · exact ih h

theorem splitextStemChars_ext (name t : List Char)
    (hnd : ∃ c ∈ name, c ≠ '.') (ht : '.' ∉ t) :
    splitextStemChars (name ++ '.' :: t) = name := by
  classical
  obtain ⟨c0, hc0mem, hc0⟩ := hnd
  -- decompose name into its leading dots and the rest, which is nonempty
  have hsplit : name.takeWhile (fun c => c = '.') ++ name.dropWhile (fun c => c = '.') = name :=
    List.takeWhile_append_dropWhile (fun c => decide (c = '.')) name
  have hrest_ne : name.dropWhile (fun c => c = '.') ≠ [] := by
    intro hnil
    have htk : name.takeWhile (fun c => c = '.') = name := by
      have h2 := hsplit
      rw [hnil, List.append_nil] at h2
      exact h2
    have hx' : c0 ∈ name.takeWhile (fun c => c = '.') := by
      rw [htk]
      exact hc0mem
    have := mem_takeWhile_pred (fun c => decide (c = '.')) name c0 hx'
    simp only [decide_eq_true_eq] at this
    exact hc0 this
  obtain ⟨c, rest, hcr⟩ := List.exists_cons_of_ne_nil hrest_ne
  have hc : (decide (c = '.')) = false := by
    have hh := List.head?_dropWhile_not (fun c => decide (c = '.')) name
    rw [hcr] at hh
    simpa using hh
  have hdots : ∀ x ∈ name.takeWhile (fun c => c = '.'), (fun c => decide (c = '.')) x = true :=
    fun x hx => mem_takeWhile_pred (fun c => decide (c = '.')) name x hx
  -- the full list decomposes as dots ++ c :: (rest ++ '.' :: t)
  have hfull : name ++ '.' :: t
      = name.takeWhile (fun c => c = '.') ++ c :: (rest ++ '.' :: t) := by
    conv_lhs => rw [← hsplit]
    rw [hcr]
    simp
  unfold splitextStemChars
  rw [hfull]
  rw [takeWhile_append_stop _ _ _ _ hdots hc]
  rw [dropWhile_append_stop _ _ _ _ hdots hc]
  have hany : (c :: (rest ++ '.' :: t)).any (fun c => c = '.') = true := by
    simp [List.any_append]
  rw [if_pos hany]
  have hrev : (c :: (rest ++ '.' :: t)).reverse
      = t.reverse ++ '.' :: (rest.reverse ++ [c]) := by
    simp
  rw [hrev, dropWhile_append_stop _ _ _ _ ?_ (by simp)]
  · simp only [List.tail_cons, List.reverse_append, List.reverse_cons, List.reverse_reverse,
      List.reverse_nil, List.nil_append, List.singleton_append]
    conv_rhs => rw [← hsplit, hcr]
  · intro x hx
    simp only [List.mem_reverse] at hx
    simp only [decide_eq_true_eq]
    intro hxe
    exact ht (hxe ▸ hx)

theorem pathStem_decomposed (d name t : List Char)
    (hname : '/' ∉ name) (hnd : ∃ c ∈ name, c ≠ '.')
    (ht : '.' ∉ t) (ht' : '/' ∉ t) :
    pathStem ⟨d ++ '/' :: (name ++ '.' :: t)⟩ = ⟨name⟩ := by
  unfold pathStem
  have hslash : '/' ∉ name ++ '.' :: t := by
    intro h
    rcases List.mem_append.mp h with h1 | h1
    · exact hname h1
    · rcases List.mem_cons.mp h1 with h2 | h2
      · exact absurd h2.symm (by decide)
      · exact ht' h2
  rw [basenameChars_append _ _ hslash, splitextStemChars_ext _ _ hnd ht]

/-! ## Dictionary lemmas -/

theorem dictLookup_dictInsert {κ β : Type} [DecidableEq κ]
    (m : List (κ × β)) (k' k : κ) (v : β) :
    dictLookup (dictInsert m k' v) k = if k' = k then some v else dictLookup m k := by
  induction m with
  | nil => simp [dictInsert, dictLookup]
  | cons kv rest ih =>
    obtain ⟨k0, v0⟩ := kv
    by_cases h0 : k0 = k'
    · subst h0
      simp only [dictInsert, if_pos rfl]
      by_cases h1 : k0 = k
      · subst h1
        simp [dictLookup]
      · simp [dictLookup, h1]
    · simp only [dictInsert, if_neg h0]
      by_cases h1 : k0 = k
      · subst h1
        have h2 : k' ≠ k0 := fun h => h0 h.symm
        simp [dictLookup, h2]
      · simp [dictLookup, h1, ih]

theorem keys_dictInsert {κ β : Type} [DecidableEq κ]
    (m : List (κ × β)) (k : κ) (v : β) :
    (dictInsert m k v).map Prod.fst =
      if k ∈ m.map Prod.fst then m.map Prod.fst else m.map Prod.fst ++ [k] := by
  induction m with
  | nil => simp [dictInsert]
  | cons kv rest ih =>
    obtain ⟨k0, v0⟩ := kv
    by_cases h0 : k0 = k
    · subst h0
      simp [dictInsert]
    · have h0' : k ≠ k0 := fun h => h0 h.symm
      simp only [dictInsert, if_neg h0, List.map_cons, List.mem_cons, h0', false_or]
      rw [ih]
      by_cases h1 : k ∈ rest.map Prod.fst
      · simp [h1]
      · simp [h1]

theorem lastMatching_eq_none {α κ : Type} [DecidableEq κ]
    (f : α → κ) (k : κ) (l : List α) (h : k ∉ l.map f) :
    lastMatching f k l = none := by
  induction l with
  | nil => rfl
  | cons a l ih =>
    simp only [List.map_cons, List.mem_cons] at h
    push_neg at h
    rw [lastMatching, ih h.2]
    simp only []
    rw [if_neg (fun he => h.1 he.symm)]

theorem lastMatching_nodup {α κ : Type} [DecidableEq κ]
    (f : α → κ) (l : List α) (x : α) (hn : (l.map f).Nodup) (hx : x ∈ l) :
    lastMatching f (f x) l = some x := by
  induction l with
  | nil => simp at hx
  | cons a l ih =>
    simp only [List.map_cons, List.nodup_cons] at hn
    rcases List.mem_cons.mp hx with h | h
    · subst h
      rw [lastMatching, lastMatching_eq_none f (f x) l hn.1]
      simp
    · rw [lastMatching, ih hn.2 h]

theorem dictLookup_foldl_dictInsert {α κ β : Type} [DecidableEq κ]
    (f : α → κ) (g : α → β) (l : List α) (m : List (κ × β)) (k : κ) :
    dictLookup (l.foldl (fun m0 a => dictInsert m0 (f a) (g a)) m) k =
      match lastMatching f k l with
      | some a => some (g a)
      | none => dictLookup m k := by
  induction l generalizing m with
  | nil => rfl
  | cons a l ih =>
    simp only [List.foldl_cons, lastMatching]
    rw [ih]
    cases hlast : lastMatching f k l with
    | some b => rfl
    | none =>
      rw [dictLookup_dictInsert]
      by_cases hk : f a = k
      · simp [hk]
      · simp [hk]

theorem keys_foldl_dictInsert {α κ β : Type} [DecidableEq κ]
    (f : α → κ) (g : α → β) (l : List α) (m : List (κ × β)) :
    (l.foldl (fun m0 a => dictInsert m0 (f a) (g a)) m).map Prod.fst =
      m.map Prod.fst ++ newKeys (m.map Prod.fst) (l.map f) := by
  induction l generalizing m with
  | nil => simp [newKeys]
  | cons a l ih =>
    simp only [List.foldl_cons, List.map_cons, newKeys]
    rw [ih, keys_dictInsert]
    by_cases h : f a ∈ m.map Prod.fst
    · rw [if_pos h, if_pos h]
    · rw [if_neg h, if_neg h]
      simp

theorem mem_newKeys {κ : Type} [DecidableEq κ] (l : List κ) :
    ∀ (seen : List κ) (x : κ), x ∈ newKeys seen l ↔ (x ∈ l ∧ x ∉ seen) := by
  induction l with
  | nil => simp [newKeys]
  | cons k ks ih =>
    intro seen x
    by_cases hk : k ∈ seen
    · rw [newKeys, if_pos hk, ih]
      constructor
      · rintro ⟨h1, h2⟩
        exact ⟨List.mem_cons_of_mem _ h1, h2⟩
      · rintro ⟨h1, h2⟩
        rcases List.mem_cons.mp h1 with h | h
        · exact absurd (h ▸ hk) h2
        · exact ⟨h, h2⟩
    · rw [newKeys, if_neg hk]
      constructor
      · intro hmem
        rcases List.mem_cons.mp hmem with h | h
        · exact ⟨h ▸ List.mem_cons_self _ _, h ▸ hk⟩
        · have := (ih (seen ++ [k]) x).mp h
          refine ⟨List.mem_cons_of_mem _ this.1, fun hs => this.2 ?_⟩
          simp [hs]
      · rintro ⟨h1, h2⟩
        by_cases hx : x = k
        · exact hx ▸ List.mem_cons_self _ _
        · rcases List.mem_cons.mp h1 with h | h
          · exact absurd h hx
          · refine List.mem_cons_of_mem _ ((ih (seen ++ [k]) x).mpr ⟨h, ?_⟩)
            simp only [List.mem_append, List.mem_singleton]
            rintro (hs | hs)
            · exact h2 hs
            · exact hx hs

theorem nodup_newKeys {κ : Type} [DecidableEq κ] (l : List κ) :
    ∀ seen : List κ, (newKeys seen l).Nodup := by
  induction l with
  | nil =>
    intro seen
    simp [newKeys]
  | cons k ks ih =>
    intro seen
    by_cases hk : k ∈ seen
    · rw [newKeys, if_pos hk]
      exact ih seen
    · rw [newKeys, if_neg hk]
      refine List.nodup_cons.mpr ⟨fun hmem => ?_, ih (seen ++ [k])⟩
      have := (mem_newKeys ks (seen ++ [k]) k).mp hmem
      exact this.2 (by simp)

/-! ## firstDedup lemmas -/

theorem newKeys_append {κ : Type} [DecidableEq κ] (l1 l2 : List κ) :
    ∀ seen : List κ,
      newKeys seen (l1 ++ l2) = newKeys seen l1 ++ newKeys (seen ++ newKeys seen l1) l2 := by
  induction l1 with
  | nil =>
    intro seen
    simp [newKeys]
  | cons a l1 ih =>
    intro seen
    by_cases ha : a ∈ seen
    · rw [List.cons_append, newKeys, if_pos ha, newKeys, if_pos ha, ih]
    · rw [List.cons_append, newKeys, if_neg ha, newKeys, if_neg ha, ih]
      simp [List.append_assoc]

theorem newKeys_eq_nil {κ : Type} [DecidableEq κ] (l : List κ) :
    ∀ seen : List κ, (∀ x ∈ l, x ∈ seen) → newKeys seen l = [] := by
  induction l with
  | nil =>
    intro seen _
    rfl
  | cons a l ih =>
    intro seen hall
    rw [newKeys, if_pos (hall a (List.mem_cons_self _ _))]
    exact ih seen (fun x hx => hall x (List.mem_cons_of_mem _ hx))

theorem newKeys_eq_self {κ : Type} [DecidableEq κ] (l : List κ) :
    ∀ seen : List κ, l.Nodup → (∀ x ∈ l, x ∉ seen) → newKeys seen l = l := by
  induction l with
  | nil =>
    intro seen _ _
    rfl
  | cons a l ih =>
    intro seen hn hdis
    rcases List.nodup_cons.mp hn with ⟨ha, hl⟩
    rw [newKeys, if_neg (hdis a (List.mem_cons_self _ _))]
    rw [ih (seen ++ [a]) hl]
    intro x hx
    simp only [List.mem_append, List.mem_singleton]
    rintro (hs | hs)
    · exact hdis x (List.mem_cons_of_mem _ hx) hs
    · exact ha (hs ▸ hx)

theorem mem_of_mem_firstDedup {κ : Type} [DecidableEq κ] (l : List κ) (x : κ)
    (hx : x ∈ firstDedup l) : x ∈ l :=
  ((mem_newKeys l [] x).mp hx).1

theorem firstDedup_of_nodup {κ : Type} [DecidableEq κ] (l : List κ)
    (h : l.Nodup) : firstDedup l = l :=
  newKeys_eq_self l [] h (fun x _ hx => by simp at hx)

theorem firstDedup_append_subset {κ : Type} [DecidableEq κ] (l1 l2 : List κ)
    (hsub : ∀ x ∈ l2, x ∈ l1) : firstDedup (l1 ++ l2) = firstDedup l1 := by
  have hnil : newKeys ([] ++ newKeys [] l1) l2 = [] := by
    apply newKeys_eq_nil
    intro x hx
    simp only [List.nil_append]
    exact (mem_newKeys l1 [] x).mpr ⟨hsub x hx, by simp⟩
  rw [firstDedup, firstDedup, newKeys_append, hnil, List.append_nil]

/-! ## Builder lemmas -/

theorem zip_self_map {α β : Type} (l : List α) (g : α → β) :
    l.zip (l.map g) = l.map (fun a => (a, g a)) := by
  induction l with
  | nil => rfl
  | cons a l ih => simp [List.zip_cons_cons, ih]

theorem fileSliceAssets_default (f : SourceFile) (dir : String) :
    fileSliceAssets f (f.periods.map (mkAsset f dir)) =
      f.periods.map
        (fun p => ⟨f.interval, sliceStart f.interval p, f.varName, mkAsset f dir p,
          f.maxDepth⟩) := by
  unfold fileSliceAssets
  rw [zip_self_map, List.map_map]
  rfl

theorem sliceStart_inj (k : IntervalKind) (p q : Nat)
    (h : sliceStart k p = sliceStart k q) : p = q := by
  cases k <;> simp only [sliceStart, Timestamp.mk.injEq] at h <;> omega

theorem latest_foldl_spec :
    ∀ (l : List MetadataRecord) (b : MetadataRecord),
      (l.foldl (fun best x => if best.start.key ≤ x.start.key then x else best) b = b ∨
        l.foldl (fun best x => if best.start.key ≤ x.start.key then x else best) b ∈ l) ∧
      b.start.key ≤
        (l.foldl (fun best x => if best.start.key ≤ x.start.key then x else best) b).start.key ∧
      ∀ x ∈ l, x.start.key ≤
        (l.foldl (fun best x => if best.start.key ≤ x.start.key then x else best) b).start.key := by
  intro l
  induction l with
  | nil =>
    intro b
    exact ⟨Or.inl rfl, le_refl _, fun x hx => absurd hx (List.not_mem_nil x)⟩
  | cons a l ih =>
    intro b
    by_cases hba : b.start.key ≤ a.start.key
    · obtain ⟨hmem, hle, hall⟩ := ih a
      rw [List.foldl_cons, if_pos hba]
      refine ⟨?_, ?_, ?_⟩
      · rcases hmem with h | h
        · exact Or.inr (by rw [h]; exact List.mem_cons_self _ _)
        · exact Or.inr (List.mem_cons_of_mem _ h)
      · exact le_trans hba hle
      · intro x hx
        rcases List.mem_cons.mp hx with h | h
        · rw [h]
          exact hle
        · exact hall x h
    · obtain ⟨hmem, hle, hall⟩ := ih b
      rw [List.foldl_cons, if_neg hba]
      refine ⟨?_, ?_, ?_⟩
      · rcases hmem with h | h
        · exact Or.inl h
        · exact Or.inr (List.mem_cons_of_mem _ h)
      · exact hle
      · intro x hx
        rcases List.mem_cons.mp hx with h | h
        · rw [h]
          exact le_trans (Nat.le_of_not_le hba) hle
        · exact hall x h

/-! ## createItems unfolding and record characterization -/

theorem createItems_false (slug : String) (files : List SourceFile) (dir : String) :
    createItems slug files dir false =
      buildRecords slug
        (files.flatMap (fun f => fileSliceAssets f (f.periods.map (mkAsset f dir)))) := rfl

theorem createItems_true (slug : String) (files : List SourceFile) (dir : String) :
    createItems slug files dir true =
      (latestRecord (createItems slug files dir false)).toList := rfl

theorem id_of_mem_buildRecords (slug : String) (ts : List SliceAsset)
    (r : MetadataRecord) (hr : r ∈ buildRecords slug ts) :
    r.id = mkId slug r.interval r.start := by
  rw [buildRecords] at hr
  obtain ⟨k, _, rfl⟩ := List.mem_map.mp hr
  rfl

theorem mem_assets_of_mem_buildRecords (slug : String) (ts : List SliceAsset)
    (r : MetadataRecord) (va : String × AssetRecord)
    (hr : r ∈ buildRecords slug ts) (hva : va ∈ r.assets) :
    ∃ t ∈ ts, va = (t.varName, t.asset) := by
  rw [buildRecords] at hr
  obtain ⟨k, _, rfl⟩ := List.mem_map.mp hr
  simp only [recordFor] at hva
  obtain ⟨t, ht, hteq⟩ := List.mem_map.mp hva
  exact ⟨t, List.mem_of_mem_filter ht, hteq.symm⟩

theorem keys_fileSliceAssets (f : SourceFile) (dir : String) :
    (fileSliceAssets f (f.periods.map (mkAsset f dir))).map SliceAsset.sliceKey
      = sliceKeys f := by
  rw [fileSliceAssets_default, List.map_map]
  rfl

theorem keys_fileSliceAssets_len (f : SourceFile) (assets : List AssetRecord)
    (h : f.periods.length ≤ assets.length) :
    (fileSliceAssets f assets).map SliceAsset.sliceKey = sliceKeys f := by
  rw [fileSliceAssets, List.map_map]
  have hfun : (SliceAsset.sliceKey ∘ fun pa : Nat × AssetRecord =>
        (⟨f.interval, sliceStart f.interval pa.1, f.varName, pa.2, f.maxDepth⟩ : SliceAsset))
      = ((fun p => (f.interval, sliceStart f.interval p)) ∘ Prod.fst) := rfl
  rw [hfun, ← List.map_map, List.map_fst_zip _ _ h, sliceKeys]

theorem sliceKeys_nodup (f : SourceFile) (h : f.periods.Nodup) :
    (sliceKeys f).Nodup := by
  refine List.Nodup.map ?_ h
  intro p q hpq
  simp only [Prod.mk.injEq, true_and] at hpq
  exact sliceStart_inj f.interval p q hpq

theorem filter_eq_singleton_of_nodup {α : Type} [DecidableEq α]
    (l : List α) (p0 : α) (hn : l.Nodup) (hp : p0 ∈ l) :
    l.filter (fun x => x = p0) = [p0] := by
  induction l with
  | nil => simp at hp
  | cons a l ih =>
    rcases List.nodup_cons.mp hn with ⟨ha, hl⟩
    rcases List.mem_cons.mp hp with h | h
    · subst h
      rw [List.filter_cons_of_pos (by simp)]
      have hnil : l.filter (fun x => x = p0) = [] := by
        rw [List.filter_eq_nil_iff]
        intro x hx
        simp only [decide_eq_true_eq]
        intro he
        exact ha (he ▸ hx)
      rw [hnil]
    · have hne : a ≠ p0 := fun he => ha (he ▸ h)
      rw [List.filter_cons_of_neg (by simpa using hne)]
      exact ih hl h

theorem filter_fileSliceAssets_eq (f : SourceFile) (dir : String) (p0 : Nat)
    (hn : f.periods.Nodup) (hp : p0 ∈ f.periods) :
    (fileSliceAssets f (f.periods.map (mkAsset f dir))).filter
        (fun t => t.sliceKey = (f.interval, sliceStart f.interval p0))
      = [⟨f.interval, sliceStart f.interval p0, f.varName, mkAsset f dir p0, f.maxDepth⟩] := by
  rw [fileSliceAssets_default, List.filter_map]
  have hcong :
      f.periods.filter
        ((fun t => decide (t.sliceKey = (f.interval, sliceStart f.interval p0))) ∘
          (fun p => (⟨f.interval, sliceStart f.interval p, f.varName, mkAsset f dir p,
            f.maxDepth⟩ : SliceAsset)))
      = f.periods.filter (fun x => x = p0) := by
    apply List.filter_congr
    intro p _
    apply decide_eq_decide.mpr
    constructor
    · intro h
      simp only [SliceAsset.sliceKey, Prod.mk.injEq, true_and] at h
      exact sliceStart_inj f.interval p p0 h
    · intro h
      rw [h]
      rfl
  rw [hcong, filter_eq_singleton_of_nodup f.periods p0 hn hp]
  rfl

theorem filter_fileSliceAssets_nil (f : SourceFile) (dir : String)
    (k : IntervalKind × Timestamp) (hk : k ∉ sliceKeys f) :
    (fileSliceAssets f (f.periods.map (mkAsset f dir))).filter
        (fun t => t.sliceKey = k) = [] := by
  rw [fileSliceAssets_default, List.filter_map]
  have hnil :
      f.periods.filter
        ((fun t => decide (t.sliceKey = k)) ∘
          (fun p => (⟨f.interval, sliceStart f.interval p, f.varName, mkAsset f dir p,
            f.maxDepth⟩ : SliceAsset)))
      = [] := by
    rw [List.filter_eq_nil_iff]
    intro p hp
    simp only [Function.comp, SliceAsset.sliceKey, decide_eq_true_eq]
    intro he
    exact hk (he ▸ List.mem_map_of_mem (fun p => (f.interval, sliceStart f.interval p)) hp)
  rw [hnil]
  rfl

theorem createItems_two_files (slug : String) (f1 f2 : SourceFile) (d : String) :
    createItems slug [f1, f2] d false
      = (firstDedup (sliceKeys f1 ++ sliceKeys f2)).map
          (recordFor slug
            (fileSliceAssets f1 (f1.periods.map (mkAsset f1 d))
              ++ fileSliceAssets f2 (f2.periods.map (mkAsset f2 d)))) := by
  rw [createItems_false]
  have hflat : [f1, f2].flatMap (fun f => fileSliceAssets f (f.periods.map (mkAsset f d)))
      = fileSliceAssets f1 (f1.periods.map (mkAsset f1 d))
        ++ fileSliceAssets f2 (f2.periods.map (mkAsset f2 d)) := by
    simp [List.flatMap_cons, List.flatMap_nil]
  rw [hflat, buildRecords, List.map_append, keys_fileSliceAssets, keys_fileSliceAssets]

theorem createItems_one_file (slug : String) (f : SourceFile) (d : String) :
    createItems slug [f] d false
      = (firstDedup (sliceKeys f)).map
          (recordFor slug (fileSliceAssets f (f.periods.map (mkAsset f d)))) := by
  rw [createItems_false]
  have hflat : [f].flatMap (fun f0 => fileSliceAssets f0 (f0.periods.map (mkAsset f0 d)))
      = fileSliceAssets f (f.periods.map (mkAsset f d)) := by
    simp [List.flatMap_cons, List.flatMap_nil]
  rw [hflat, buildRecords, keys_fileSliceAssets]

/-! ## Collection builder lemmas -/

theorem collectAssets_spec (cache : List (String × String × String)) (hrefs : List String)
    (h : ∀ x ∈ hrefs, goodCacheEntry cache x = true) :
    ∃ assets, collectAssets cache hrefs = .ok assets
      ∧ assets.length = hrefs.length
      ∧ ∀ ka ∈ assets, ka.2.title ≠ "" ∧ ka.2.description ≠ ""
          ∧ ka.2.mediaType = "application/netcdf" ∧ ka.2.roles ≠ [] := by
  induction hrefs with
  | nil =>
    refine ⟨[], rfl, rfl, ?_⟩
    intro ka hka
    simp at hka
  | cons h0 hs ih =>
    have hg := h h0 (List.mem_cons_self _ _)
    rw [goodCacheEntry] at hg
    cases hlk : dictLookup cache (pathStem h0) with
    | none => rw [hlk] at hg; simp at hg
    | some td =>
      rw [hlk] at hg
      have htd : td.1 ≠ "" ∧ td.2 ≠ "" := by
        simpa using hg
      obtain ⟨rest, hrest, hlen, hall⟩ := ih (fun x hx => h x (List.mem_cons_of_mem _ hx))
      refine ⟨(pathStem h0, ⟨td.1, td.2, "application/netcdf", ["data", "source"]⟩) :: rest,
        ?_, by simp [hlen], ?_⟩
      · rw [collectAssets, hlk, hrest]
        rfl
      · intro ka hka
        rcases List.mem_cons.mp hka with hh | hh
        · subst hh
          exact ⟨htd.1, htd.2, rfl, by simp⟩
        · exact hall ka hh

/-! ## Claim theorems -/

/-- Claim C10: the sea-ice `create_item` identifier depends only on the
basename-without-extension of the input href: two hrefs that differ only in
their directory components or their file extension receive equal item ids. -/
theorem seaIceCreateItem_id_stem_only (d1 d2 name t1 t2 : List Char)
    (hname : '/' ∉ name) (hnd : ∃ c ∈ name, c ≠ '.')
    (ht1 : '.' ∉ t1) (ht1' : '/' ∉ t1) (ht2 : '.' ∉ t2) (ht2' : '/' ∉ t2) :
    (seaIceCreateItem ⟨d1 ++ '/' :: (name ++ '.' :: t1)⟩).id
      = (seaIceCreateItem ⟨d2 ++ '/' :: (name ++ '.' :: t2)⟩).id := by
  show pathStem _ = pathStem _
  rw [pathStem_decomposed d1 name t1 hname hnd ht1 ht1',
    pathStem_decomposed d2 name t2 hname hnd ht2 ht2']

/-- Witness for C10: `a/x.nc` and `b/c/x.tif` receive the same item id. -/
theorem seaIceCreateItem_id_stem_only_witness :
    (seaIceCreateItem ⟨['a'] ++ '/' :: (['x'] ++ '.' :: ['n', 'c'])⟩).id
      = (seaIceCreateItem ⟨['b', '/', 'c'] ++ '/' :: (['x'] ++ '.' :: ['t', 'i', 'f'])⟩).id :=
  seaIceCreateItem_id_stem_only ['a'] ['b', '/', 'c'] ['x'] ['n', 'c'] ['t', 'i', 'f']
    (by decide) (by decide) (by decide) (by decide) (by decide) (by decide)

/-- Claim C9: in the extraction script, within one CDR a later href whose
filename stem equals an earlier one silently overwrites it: the per-CDR cache
maps each stem to the entry of the last href carrying that stem, and holds
exactly one entry per distinct stem (not one per URL). -/
theorem cdrMetadata_last_write_wins (cdr : Cdr) (k : String) :
    dictLookup (cdrMetadata cdr) k
      = (lastMatching pathStem k cdr.hrefs).map (fun h => assetEntry (cdr.attrs h))
    ∧ ((cdrMetadata cdr).map Prod.fst).Nodup
    ∧ (∀ s : String, s ∈ (cdrMetadata cdr).map Prod.fst ↔ s ∈ cdr.hrefs.map pathStem) := by
  refine ⟨?_, ?_, ?_⟩
  · rw [cdrMetadata, dictLookup_foldl_dictInsert]
    cases hlast : lastMatching pathStem k cdr.hrefs with
    | some h => rfl
    | none => rfl
  · rw [cdrMetadata, keys_foldl_dictInsert]
    simpa using nodup_newKeys (cdr.hrefs.map pathStem) []
  · intro s
    rw [cdrMetadata, keys_foldl_dictInsert]
    simp only [List.map_nil, List.nil_append]
    rw [mem_newKeys]
    simp

/-- Claim C8: the extraction script yields a two-level mapping: for a CDR of
the catalog and a source URL of that CDR, the output maps the CDR's slug to a
mapping from the file's basename-without-extension to exactly the two fields
title and description read from that file (assuming, as for the real catalog,
distinct slugs and distinct per-CDR filename stems). -/
theorem scriptMetadata_two_level (cdrs : List Cdr) (cdr : Cdr) (href : String)
    (hcdr : cdr ∈ cdrs) (hhref : href ∈ cdr.hrefs)
    (hslugs : (cdrs.map Cdr.slug).Nodup)
    (hstems : (cdr.hrefs.map pathStem).Nodup) :
    (dictLookup (scriptMetadata cdrs) cdr.slug).bind
        (fun inner => dictLookup inner (pathStem href))
      = some (assetEntry (cdr.attrs href))
    ∧ (assetEntry (cdr.attrs href)).map Prod.fst = ["title", "description"] := by
  constructor
  · have houter : dictLookup (scriptMetadata cdrs) cdr.slug = some (cdrMetadata cdr) := by
      rw [scriptMetadata, dictLookup_foldl_dictInsert]
      have hl := lastMatching_nodup (fun c => Cdr.slug c) cdrs cdr hslugs hcdr
      rw [hl]
    rw [houter]
    have hinner : dictLookup (cdrMetadata cdr) (pathStem href)
        = some (assetEntry (cdr.attrs href)) := by
      rw [cdrMetadata, dictLookup_foldl_dictInsert]
      have hl := lastMatching_nodup pathStem cdr.hrefs href hstems hhref
      rw [hl]
    exact hinner
  · rfl

/-- Witness for C8 at a concrete two-file CDR. -/
theorem scriptMetadata_two_level_witness :
    (dictLookup (scriptMetadata [sampleCdr]) sampleCdr.slug).bind
        (fun inner => dictLookup inner (pathStem "d/x.nc"))
      = some (assetEntry (sampleCdr.attrs "d/x.nc"))
    ∧ (assetEntry (sampleCdr.attrs "d/x.nc")).map Prod.fst = ["title", "description"] :=
  scriptMetadata_two_level [sampleCdr] sampleCdr "d/x.nc"
    (List.mem_singleton_self _) (by decide) (by decide) (by decide)

/-- Claim C6 counterexample: a supplied pre-converted path list whose count
disagrees with the per-slice count (1 path against 2 slices) does NOT make
the builder fail: the converter still returns one asset per slice and the
builder emits a record for every slice, as the repository's own
`test_cogify_cog_href` shows. -/
theorem cog_href_count_mismatch_counterexample :
    ["d/sub/heat_content_anomaly_yearly_1955.tif"].length ≠ sampleFile.periods.length
    ∧ (cogify sampleFile "d" (some ["d/sub/heat_content_anomaly_yearly_1955.tif"])).length
        = sampleFile.periods.length
    ∧ (createItemsForFile "ohc" sampleFile "d"
          (some ["d/sub/heat_content_anomaly_yearly_1955.tif"])).length = 2 :=
  ⟨by decide, by decide, by decide⟩

/-- Claim C6 (amended): supplying pre-converted asset paths never makes the
builder fail, whatever their count: the converter still returns exactly one
asset per time slice — reusing any supplied path whose basename equals the
slice's expected COG filename — and the per-file builder emits exactly as
many records as a run without supplied paths. -/
theorem cog_hrefs_no_mismatch (slug : String) (f : SourceFile) (dir : String)
    (hrefs : List String) :
    (cogify f dir (some hrefs)).length = f.periods.length
    ∧ (createItemsForFile slug f dir (some hrefs)).length
        = (createItems slug [f] dir false).length
    ∧ ∀ p ∈ f.periods, ∀ h : String,
        hrefs.find? (fun h0 => pathBasename h0 = cogFileName f p) = some h →
        ({ mkAsset f dir p with href := h } : AssetRecord) ∈ cogify f dir (some hrefs) := by
  have hlen1 : (cogify f dir (some hrefs)).length = f.periods.length :=
    List.length_map _ _
  refine ⟨hlen1, ?_, ?_⟩
  · rw [createItemsForFile, buildRecords, List.length_map,
      keys_fileSliceAssets_len f _ (le_of_eq hlen1.symm), createItems_one_file,
      List.length_map]
  · intro p hp h hfind
    have hdef : cogify f dir (some hrefs)
        = f.periods.map (fun p0 =>
            match hrefs.find? (fun h0 => pathBasename h0 = cogFileName f p0) with
            | some h0 => { mkAsset f dir p0 with href := h0 }
            | none => mkAsset f dir p0) := rfl
    rw [hdef]
    refine List.mem_map.mpr ⟨p, hp, ?_⟩
    show (match hrefs.find? (fun h0 => pathBasename h0 = cogFileName f p) with
          | some h0 => { mkAsset f dir p with href := h0 }
          | none => mkAsset f dir p)
        = ({ mkAsset f dir p with href := h } : AssetRecord)
    rw [hfind]

/-- Witness for the amended C6: one supplied path, moved into a subdirectory
but keeping the expected filename, is reused for the 1955 slice. -/
theorem cog_hrefs_no_mismatch_witness :
    ({ mkAsset sampleFile "d" 1955
        with href := "d/sub/heat_content_anomaly_yearly_1955.tif" } : AssetRecord)
      ∈ cogify sampleFile "d" (some ["d/sub/heat_content_anomaly_yearly_1955.tif"]) :=
  (cog_hrefs_no_mismatch "ohc" sampleFile "d"
      ["d/sub/heat_content_anomaly_yearly_1955.tif"]).2.2
    1955 (by decide) "d/sub/heat_content_anomaly_yearly_1955.tif" (by decide)

/-- Claim C7: for a unitless variable (units attribute absent or empty, as for
a salinity anomaly), the built asset's band descriptor has no unit key at all
— the key is absent rather than set to an empty string; this holds for the
converter's asset record and for every asset of every built item. -/
theorem unitless_band_omits_unit (slug : String) (f : SourceFile) (dir : String)
    (p : Nat) (hu : f.units = none ∨ f.units = some "") :
    "unit" ∉ (bandFields (mkAsset f dir p).band).map Prod.fst
    ∧ ∀ r ∈ createItems slug [f] dir false, ∀ va ∈ r.assets,
        "unit" ∉ (bandFields va.2.band).map Prod.fst := by
  have hnone : (mkBand f.units).unit = none := by
    rcases hu with h | h <;> rw [h] <;> rfl
  have hcore : ∀ b : RasterBand, b.unit = none →
      "unit" ∉ (bandFields b).map Prod.fst := by
    intro b hb
    rw [bandFields, hb]
    intro hmem
    simp at hmem
  constructor
  · exact hcore _ hnone
  · intro r hr va hva
    rw [createItems_false] at hr
    have hflat : [f].flatMap (fun f0 => fileSliceAssets f0 (f0.periods.map (mkAsset f0 dir)))
        = fileSliceAssets f (f.periods.map (mkAsset f dir)) := by
      simp [List.flatMap_cons, List.flatMap_nil]
    rw [hflat] at hr
    obtain ⟨t, ht, hvaeq⟩ := mem_assets_of_mem_buildRecords slug _ r va hr hva
    rw [fileSliceAssets_default] at ht
    obtain ⟨p', _, hteq⟩ := List.mem_map.mp ht
    have hasset : va.2 = mkAsset f dir p' := by
      rw [hvaeq, ← hteq]
    rw [hasset]
    exact hcore _ hnone

/-- Witness for C7 at a salinity file with empty units attribute. -/
theorem unitless_band_omits_unit_witness :
    "unit" ∉ (bandFields (mkAsset sampleFileB "d" 1955).band).map Prod.fst
    ∧ ∀ r ∈ createItems "ohc" [sampleFileB] "d" false, ∀ va ∈ r.assets,
        "unit" ∉ (bandFields va.2.band).map Prod.fst :=
  unitless_band_omits_unit "ohc" sampleFileB "d" 1955 (Or.inr rfl)

/-- Claim C3: every record's identifier is the deterministic function `mkId`
of the triple (dataset slug, interval kind, start timestamp): records with
equal triples have equal identifiers even across runs on different inputs or
output directories, and re-running the builder on the same input yields
identical records. -/
theorem record_id_deterministic :
    (∀ (slug : String) (files files' : List SourceFile) (d d' : String)
        (r r' : MetadataRecord),
        r ∈ createItems slug files d false → r' ∈ createItems slug files' d' false →
        r.interval = r'.interval → r.start = r'.start → r.id = r'.id)
    ∧ ∀ (slug : String) (files : List SourceFile) (d : String) (lo : Bool),
        createItems slug files d lo = createItems slug files d lo := by
  constructor
  · intro slug files files' d d' r r' hr hr' hik hst
    rw [createItems_false] at hr hr'
    rw [id_of_mem_buildRecords slug _ r hr, id_of_mem_buildRecords slug _ r' hr',
      hik, hst]
  · intro slug files d lo
    rfl

/-- Witness for C3: the same netcdf built into two different output
directories yields records with the same identifier. -/
theorem record_id_deterministic_witness :
    ((createItems "ohc" [sampleFile] "da" false).getD 0 dfltRecord).id
      = ((createItems "ohc" [sampleFile] "db" false).getD 0 dfltRecord).id :=
  record_id_deterministic.1 "ohc" [sampleFile] [sampleFile] "da" "db"
    ((createItems "ohc" [sampleFile] "da" false).getD 0 dfltRecord)
    ((createItems "ohc" [sampleFile] "db" false).getD 0 dfltRecord)
    (by decide) (by decide) (by decide) (by decide)

/-- Claim C2: every item built from a yearly-interval source file spans one
whole year: its start is January 1st 00:00:00 of some year Y and its stop is
December 31st 23:59:59 of the same year Y — the last instant of the covered
period, not the next year's start. -/
theorem yearly_slice_bounds (slug : String) (f : SourceFile) (dir : String)
    (hy : f.interval = IntervalKind.yearly) :
    ∀ r ∈ createItems slug [f] dir false,
      r.start = ⟨r.start.year, 1, 1, 0, 0, 0⟩
      ∧ r.stop = ⟨r.start.year, 12, 31, 23, 59, 59⟩ := by
  intro r hr
  rw [createItems_one_file] at hr
  obtain ⟨k, hk, hreq⟩ := List.mem_map.mp hr
  have hk2 := mem_of_mem_firstDedup _ _ hk
  rw [sliceKeys] at hk2
  obtain ⟨p, _, hkeq⟩ := List.mem_map.mp hk2
  have hstart : r.start = sliceStart f.interval p := by
    rw [← hreq, ← hkeq]
    rfl
  have hik : r.interval = f.interval := by
    rw [← hreq, ← hkeq]
    rfl
  have hstop : r.stop = sliceStop r.interval r.start := by
    rw [← hreq]
    rfl
  rw [hstop, hik, hstart, hy, sliceStart]
  exact ⟨rfl, rfl⟩

/-- Witness for C2 at a concrete yearly file. -/
theorem yearly_slice_bounds_witness :
    ((createItems "ohc" [sampleFile] "d" false).getD 0 dfltRecord).start
      = ⟨((createItems "ohc" [sampleFile] "d" false).getD 0 dfltRecord).start.year,
          1, 1, 0, 0, 0⟩
    ∧ ((createItems "ohc" [sampleFile] "d" false).getD 0 dfltRecord).stop
      = ⟨((createItems "ohc" [sampleFile] "d" false).getD 0 dfltRecord).start.year,
          12, 31, 23, 59, 59⟩ :=
  yearly_slice_bounds "ohc" sampleFile "d" rfl
    ((createItems "ohc" [sampleFile] "d" false).getD 0 dfltRecord) (by decide)

/-- Claim C5: whenever create_items yields any records, calling it with
latest_only set returns exactly one record, the chronologically last record
of the run without latest_only. -/
theorem latest_only_returns_last (slug : String) (files : List SourceFile) (dir : String)
    (hne : createItems slug files dir false ≠ []) :
    ∃ r, createItems slug files dir true = [r]
      ∧ r ∈ createItems slug files dir false
      ∧ ∀ r' ∈ createItems slug files dir false, r'.start.key ≤ r.start.key := by
  cases hrs : createItems slug files dir false with
  | nil => exact absurd hrs hne
  | cons r0 rest =>
    have hlink : createItems slug files dir true
        = (latestRecord (createItems slug files dir false)).toList := rfl
    rw [hrs] at hlink
    obtain ⟨hmem, hle, hall⟩ := latest_foldl_spec rest r0
    refine ⟨rest.foldl (fun best x => if best.start.key ≤ x.start.key then x else best) r0,
      ?_, ?_, ?_⟩
    · rw [hlink]
      rfl
    · rcases hmem with h | h
      · rw [h]
        exact List.mem_cons_self _ _
      · exact List.mem_cons_of_mem _ h
    · intro r' hr'
      rcases List.mem_cons.mp hr' with h | h
      · rw [h]
        exact hle
      · exact hall r' h

/-- Witness for C5 at a concrete two-slice yearly file. -/
theorem latest_only_returns_last_witness :
    ∃ r, createItems "ohc" [sampleFile] "d" true = [r]
      ∧ r ∈ createItems "ohc" [sampleFile] "d" false
      ∧ ∀ r' ∈ createItems "ohc" [sampleFile] "d" false, r'.start.key ≤ r.start.key :=
  latest_only_returns_last "ohc" [sampleFile] "d" (by decide)

/-- Claim C4: for two source files passed together to create_items: if they
cover the same time slices, the output holds one merged record per slice with
exactly the union of both files' assets, keyed distinctly by variable name;
if their slice sets are disjoint, each file contributes independent records
each holding exactly one asset. -/
theorem create_items_merge_split (slug : String) (f1 f2 : SourceFile) (d : String)
    (hv : f1.varName ≠ f2.varName) (hn1 : f1.periods.Nodup) (hn2 : f2.periods.Nodup) :
    ((f1.interval = f2.interval → f1.periods = f2.periods →
        (createItems slug [f1, f2] d false).length = f1.periods.length ∧
        ∀ r ∈ createItems slug [f1, f2] d false,
          r.assets.map Prod.fst = [f1.varName, f2.varName])
      ∧ ((∀ k ∈ sliceKeys f1, k ∉ sliceKeys f2) →
        (createItems slug [f1, f2] d false).length
            = f1.periods.length + f2.periods.length ∧
        ∀ r ∈ createItems slug [f1, f2] d false, r.assets.length = 1)) := by
  constructor
  · intro hI hP
    have hK : sliceKeys f2 = sliceKeys f1 := by
      rw [sliceKeys, sliceKeys, ← hI, ← hP]
    have hKnodup : (sliceKeys f1).Nodup := sliceKeys_nodup f1 hn1
    have hdedup : firstDedup (sliceKeys f1 ++ sliceKeys f2) = sliceKeys f1 := by
      rw [hK, firstDedup_append_subset _ _ (fun x hx => hx)]
      exact firstDedup_of_nodup _ hKnodup
    rw [createItems_two_files, hdedup]
    constructor
    · rw [List.length_map, sliceKeys, List.length_map]
    · intro r hr
      obtain ⟨k, hk, hreq⟩ := List.mem_map.mp hr
      rw [sliceKeys] at hk
      obtain ⟨p0, hp0, hkeq0⟩ := List.mem_map.mp hk
      have hkeq : (f1.interval, sliceStart f1.interval p0) = k := hkeq0
      subst hkeq
      have h2 : (fileSliceAssets f2 (f2.periods.map (mkAsset f2 d))).filter
          (fun t => t.sliceKey = (f1.interval, sliceStart f1.interval p0))
          = [⟨f1.interval, sliceStart f1.interval p0, f2.varName, mkAsset f2 d p0,
              f2.maxDepth⟩] := by
        rw [hI]
        exact filter_fileSliceAssets_eq f2 d p0 hn2 (hP ▸ hp0)
      rw [← hreq]
      simp only [recordFor]
      rw [List.filter_append, filter_fileSliceAssets_eq f1 d p0 hn1 hp0, h2]
      rfl
  · intro hdis
    have hK1 : (sliceKeys f1).Nodup := sliceKeys_nodup f1 hn1
    have hK2 : (sliceKeys f2).Nodup := sliceKeys_nodup f2 hn2
    have happ : (sliceKeys f1 ++ sliceKeys f2).Nodup :=
      List.Nodup.append hK1 hK2 (fun a ha1 ha2 => hdis a ha1 ha2)
    have hdedup : firstDedup (sliceKeys f1 ++ sliceKeys f2) = sliceKeys f1 ++ sliceKeys f2 :=
      firstDedup_of_nodup _ happ
    rw [createItems_two_files, hdedup]
    constructor
    · simp [sliceKeys]
    · intro r hr
      obtain ⟨k, hk, hreq⟩ := List.mem_map.mp hr
      rw [← hreq]
      simp only [recordFor]
      rw [List.filter_append]
      rcases List.mem_append.mp hk with hk1 | hk1
      · rw [sliceKeys] at hk1
        obtain ⟨p0, hp0, hkeq0⟩ := List.mem_map.mp hk1
        have hkeq : (f1.interval, sliceStart f1.interval p0) = k := hkeq0
        subst hkeq
        rw [filter_fileSliceAssets_eq f1 d p0 hn1 hp0,
          filter_fileSliceAssets_nil f2 d _ (hdis _ hk1)]
        rfl
      · rw [sliceKeys] at hk1
        obtain ⟨p0, hp0, hkeq0⟩ := List.mem_map.mp hk1
        have hkeq : (f2.interval, sliceStart f2.interval p0) = k := hkeq0
        subst hkeq
        have hnot1 : (f2.interval, sliceStart f2.interval p0) ∉ sliceKeys f1 :=
          fun hc => hdis _ hc hk1
        rw [filter_fileSliceAssets_eq f2 d p0 hn2 hp0,
          filter_fileSliceAssets_nil f1 d _ hnot1]
        rfl

/-- Witness for C4: a merged pair of files sharing the 1955 and 1956 yearly
slices, and a split pair with disjoint slices. -/
theorem create_items_merge_split_witness :
    ((createItems "ohc" [sampleFile, sampleFileB] "d" false).length
        = sampleFile.periods.length
      ∧ ∀ r ∈ createItems "ohc" [sampleFile, sampleFileB] "d" false,
          r.assets.map Prod.fst = [sampleFile.varName, sampleFileB.varName])
    ∧ ((createItems "ohc" [sampleFile, sampleFileC] "d" false).length
        = sampleFile.periods.length + sampleFileC.periods.length
      ∧ ∀ r ∈ createItems "ohc" [sampleFile, sampleFileC] "d" false,
          r.assets.length = 1) :=
  ⟨(create_items_merge_split "ohc" sampleFile sampleFileB "d" (by decide) (by decide)
      (by decide)).1 rfl rfl,
    (create_items_merge_split "ohc" sampleFile sampleFileC "d" (by decide) (by decide)
      (by decide)).2 (by decide)⟩

/-- Claim C1: create_collection on a dataset family whose cache entries are
all present with non-empty title and description yields a collection record
with one asset per configured source file — 44 of them for the
ocean-heat-content family — and every asset has a non-empty title, a
non-empty description, the fixed media type application/netcdf and a
non-empty role set. -/
theorem collection_assets_complete :
    (∀ (family : DatasetFamily) (cache : List (String × String × String)),
        (∀ h ∈ family.hrefs, goodCacheEntry cache h = true) →
        ∃ c, createCollection family cache = .ok c
          ∧ c.assets.length = family.hrefs.length
          ∧ ∀ ka ∈ c.assets, ka.2.title ≠ "" ∧ ka.2.description ≠ ""
              ∧ ka.2.mediaType = "application/netcdf" ∧ ka.2.roles ≠ [])
    ∧ oceanHeatContent.hrefs.length = 44 := by
  constructor
  · intro family cache hcache
    obtain ⟨assets, hok, hlen, hall⟩ := collectAssets_spec cache family.hrefs hcache
    refine ⟨{ id := family.slug, assets := assets }, ?_, hlen, hall⟩
    rw [createCollection, hok]
    rfl
  · simp [oceanHeatContent]

/-- Witness for C1 at a one-file family and a matching cache. -/
theorem collection_assets_complete_witness :
    ∃ c, createCollection ⟨"fam", ["d/x.nc"]⟩ [("x", "T", "D")] = .ok c
      ∧ c.assets.length = (⟨"fam", ["d/x.nc"]⟩ : DatasetFamily).hrefs.length
      ∧ ∀ ka ∈ c.assets, ka.2.title ≠ "" ∧ ka.2.description ≠ ""
          ∧ ka.2.mediaType = "application/netcdf" ∧ ka.2.roles ≠ [] :=
  collection_assets_complete.1 ⟨"fam", ["d/x.nc"]⟩ [("x", "T", "D")] (by decide)
